import Mathlib

/-!
Shallow embedding of the analytics pipeline of `ecommerce_dashboard.py`:
the CSV loader's encoding fallback (`load_csv_with_encoding`), the
fact/dimension left-join unifier and its derived columns (`profit_margin`,
`main_category`), the sidebar filter stage of `main`, and the aggregation
stage (`create_kpi_metrics`, grouped sums, and the customer-segmentation
rule of `create_customer_analysis` with its linear-interpolation spend
quantiles).  Numeric columns are modelled over `ℚ`; pandas missing values
(`NaN` keys, `NaT` dates) are modelled with `Option`, except where the
IEEE float semantics of a division by zero is itself the point, where an
explicit float value type is used.
-/

namespace Dashboard

/-- Total list indexing with an explicit default, mirroring positional
access into a pandas column. -/
def nthD {α : Type} (d : α) : List α → ℕ → α
  | [], _ => d
  | a :: _, 0 => a
  | _ :: t, i + 1 => nthD d t i

theorem nthD_mem {α : Type} (d : α) : ∀ (l : List α) (i : ℕ), i < l.length → nthD d l i ∈ l := by
  intro l
  induction l with
  | nil => intro i h; simp at h
  | cons a t ih =>
    intro i h
    cases i with
    | zero => exact List.mem_cons_self a t
    | succ j =>
      exact List.mem_cons_of_mem a (ih j (by simpa using h))

theorem nthD_map_snd {α β : Type} : ∀ (l : List (α × β)) (i : ℕ) (pr : α × β) (dflt : β),
    l.get? i = some pr → nthD dflt (l.map Prod.snd) i = pr.2 := by
  intro l
  induction l with
  | nil => intro i pr d h; simp at h
  | cons a t ih =>
    intro i pr d h
    cases i with
    | zero => simp at h; simp [nthD, h]
    | succ j =>
      simp only [List.get?] at h
      simpa [nthD] using ih j pr d h

theorem map_snd_set {α β : Type} : ∀ (l : List (α × β)) (i : ℕ) (p : α × β),
    (l.set i p).map Prod.snd = (l.map Prod.snd).set i p.2 := by
  intro l
  induction l with
  | nil => intro i p; simp
  | cons a t ih =>
    intro i p
    cases i with
    | zero => simp
    | succ j => simp [ih]

/-- Counting elements `≤ x`; the Boolean predicate used throughout the
order-statistic development. -/
def leB (x : ℚ) : ℚ → Bool := fun y => decide (y ≤ x)

theorem countP_set_eq (p : ℚ → Bool) : ∀ (l : List ℚ) (i : ℕ) (v a : ℚ),
    l.get? i = some v →
    (l.set i a).countP p + (if p v then 1 else 0) = l.countP p + (if p a then 1 else 0) := by
  intro l
  induction l with
  | nil => intro i v a h; simp at h
  | cons b t ih =>
    intro i v a h
    cases i with
    | zero =>
      simp at h
      subst h
      simp [List.countP_cons]
      omega
    | succ j =>
      simp only [List.get?] at h
      have := ih j v a h
      simp only [List.set, List.countP_cons]
      omega

theorem countP_le_of_imp (p q : ℚ → Bool) (h : ∀ x, p x = true → q x = true) :
    ∀ l : List ℚ, l.countP p ≤ l.countP q := by
  intro l
  exact List.countP_mono_left (fun x _ hx => h x hx)

theorem countP_strict (p q : ℚ → Bool) (himp : ∀ x, p x = true → q x = true) :
    ∀ (l : List ℚ) (i : ℕ) (v : ℚ), l.get? i = some v →
    p v = false → q v = true → l.countP p + 1 ≤ l.countP q := by
  intro l
  induction l with
  | nil => intro i v h; simp at h
  | cons b t ih =>
    intro i v h hp hq
    cases i with
    | zero =>
      simp at h
      subst h
      have hmono := countP_le_of_imp p q himp t
      simp [List.countP_cons, hp, hq]
      omega
    | succ j =>
      simp only [List.get?] at h
      have := ih j v h hp hq
      simp only [List.countP_cons]
      have : t.countP p + 1 ≤ t.countP q := this
      by_cases hb : p b = true
      · have hqb : q b = true := himp b hb
        simp [hb, hqb]; omega
      · simp only [Bool.not_eq_true] at hb
        simp [hb]
        by_cases hqb : q b = true <;> simp [hqb] <;> omega

/-- For a sorted list, the `k`-th order statistic is `≤ x` exactly when at
least `k + 1` elements are `≤ x`. -/
theorem sorted_nthD_le_iff : ∀ (A : List ℚ), A.Sorted (· ≤ ·) →
    ∀ (k : ℕ), k < A.length → ∀ x : ℚ,
    (nthD 0 A k ≤ x ↔ k < A.countP (leB x)) := by
  intro A
  induction A with
  | nil => intro _ k hk; simp at hk
  | cons a t ih =>
    intro hs k hk x
    have hhead : ∀ b ∈ t, a ≤ b := (List.sorted_cons.mp hs).1
    have hts : t.Sorted (· ≤ ·) := (List.sorted_cons.mp hs).2
    cases k with
    | zero =>
      simp only [nthD]
      constructor
      · intro hax
        have : leB x a = true := by simp [leB, hax]
        simp [List.countP_cons, this]
      · intro hcount
        by_contra hax
        push_neg at hax
        have h1 : leB x a = false := by simp [leB]; linarith
        have h2 : t.countP (leB x) = 0 := by
          rw [List.countP_eq_zero]
          intro b hb
          simp [leB]
          exact lt_of_lt_of_le hax (hhead b hb)
        simp [List.countP_cons, h1, h2] at hcount
    | succ j =>
      have hj : j < t.length := by simpa using hk
      have iht := ih hts j hj x
      simp only [nthD]
      constructor
      · intro hle
        have hmem : nthD 0 t j ∈ t := nthD_mem 0 t j hj
        have hax : a ≤ x := le_trans (hhead _ hmem) hle
        have h1 : leB x a = true := by simp [leB, hax]
        have := iht.mp hle
        simp [List.countP_cons, h1]
        omega
      · intro hcount
        apply iht.mpr
        simp only [List.countP_cons] at hcount
        by_cases h1 : leB x a = true
        · simp [h1] at hcount; omega
        · simp only [Bool.not_eq_true] at h1
          simp [h1] at hcount; omega

/-- The sort applied by `quantileLinear`, mirroring the sort inside
pandas `Series.quantile`. -/
def sortL (l : List ℚ) : List ℚ := l.insertionSort (· ≤ ·)

theorem sortL_perm (l : List ℚ) : List.Perm (sortL l) l := List.perm_insertionSort _ l

theorem sortL_sorted (l : List ℚ) : (sortL l).Sorted (· ≤ ·) := List.sorted_insertionSort _ l

theorem sortL_length (l : List ℚ) : (sortL l).length = l.length := (sortL_perm l).length_eq

theorem sortL_countP (p : ℚ → Bool) (l : List ℚ) : (sortL l).countP p = l.countP p :=
  (sortL_perm l).countP_eq p

/-- Raising the element at index `i` of `l` from `v` to `v'` moves every
order statistic weakly up, and by at most `v' - v`. -/
theorem sorted_set_nth_bounds (l : List ℚ) (i : ℕ) (v v' : ℚ)
    (hget : l.get? i = some v) (hvv : v ≤ v') (k : ℕ) (hk : k < l.length) :
    nthD 0 (sortL l) k ≤ nthD 0 (sortL (l.set i v')) k ∧
    nthD 0 (sortL (l.set i v')) k ≤ nthD 0 (sortL l) k + (v' - v) := by
  have hlenA : (sortL l).length = l.length := sortL_length l
  have hlenB : (sortL (l.set i v')).length = l.length := by
    rw [sortL_length, List.length_set]
  have hkA : k < (sortL l).length := by omega
  have hkB : k < (sortL (l.set i v')).length := by omega
  have charA := sorted_nthD_le_iff (sortL l) (sortL_sorted l) k hkA
  have charB := sorted_nthD_le_iff (sortL (l.set i v')) (sortL_sorted _) k hkB
  set Ak := nthD 0 (sortL l) k with hAk
  set Bk := nthD 0 (sortL (l.set i v')) k with hBk
  -- counting in the sorted lists equals counting in the raw lists
  have cntA : ∀ x, (sortL l).countP (leB x) = l.countP (leB x) := fun x => sortL_countP _ l
  have cntB : ∀ x, (sortL (l.set i v')).countP (leB x) = (l.set i v').countP (leB x) :=
    fun x => sortL_countP _ _
  constructor
  · -- lower bound: Ak ≤ Bk
    rw [charA Bk, cntA]
    have hB : k < (l.set i v').countP (leB Bk) := by
      rw [← cntB]
      exact (charB Bk).mp le_rfl
    have hcnt := countP_set_eq (leB Bk) l i v v' hget
    have himp : leB Bk v' = true → leB Bk v = true := by
      simp [leB]; intro h; linarith
    by_cases h1 : leB Bk v' = true
    · have h2 := himp h1
      simp [h1, h2] at hcnt
      omega
    · simp only [Bool.not_eq_true] at h1
      simp [h1] at hcnt
      by_cases h2 : leB Bk v = true <;> simp [h2] at hcnt <;> omega
  · -- upper bound: Bk ≤ Ak + (v' - v)
    rw [charB (Ak + (v' - v)), cntB]
    have hA : k < l.countP (leB Ak) := by
      rw [← cntA]
      exact (charA Ak).mp le_rfl
    have hcnt := countP_set_eq (leB (Ak + (v' - v))) l i v v' hget
    have hmono : l.countP (leB Ak) ≤ l.countP (leB (Ak + (v' - v))) := by
      apply countP_le_of_imp
      intro x
      simp [leB]
      intro h; linarith
    by_cases hsA : v ≤ Ak
    · -- the modified element was itself below the target order statistic
      have hs'x : leB (Ak + (v' - v)) v' = true := by simp [leB]; linarith
      have hsx : leB (Ak + (v' - v)) v = true := by simp [leB]; linarith
      simp [hs'x, hsx] at hcnt
      omega
    · push_neg at hsA
      by_cases hsx : leB (Ak + (v' - v)) v = true
      · -- v sits strictly above Ak but still below the shifted target
        have hvx : v ≤ Ak + (v' - v) := by simpa [leB] using hsx
        have hstrict : l.countP (leB Ak) + 1 ≤ l.countP (leB (Ak + (v' - v))) := by
          apply countP_strict (leB Ak) (leB (Ak + (v' - v))) _ l i v hget
          · simp [leB]; linarith
          · simp [leB]; linarith
          · intro x; simp [leB]; intro h; linarith
        by_cases hs'x : leB (Ak + (v' - v)) v' = true
        · simp [hsx, hs'x] at hcnt; omega
        · simp only [Bool.not_eq_true] at hs'x
          simp [hsx, hs'x] at hcnt; omega
      · simp only [Bool.not_eq_true] at hsx
        by_cases hs'x : leB (Ak + (v' - v)) v' = true
        · simp [hsx, hs'x] at hcnt; omega
        · simp only [Bool.not_eq_true] at hs'x
          simp [hsx, hs'x] at hcnt; omega


/-- Linear-interpolation quantile of a list of rationals, mirroring
`Series.quantile(q)` of pandas (numpy linear method): sort the values,
set `h = q * (n - 1)`, and interpolate between the order statistics at
`floor h` and the next position (clipped to `n - 1`).  On the empty list
the source yields `NaN`; this model then returns the junk value `0`, and
every use below is guarded by non-emptiness. -/
def quantileLinear (q : ℚ) (l : List ℚ) : ℚ :=
  let s := sortL l
  let h : ℚ := q * ((s.length : ℚ) - 1)
  let i : ℕ := (Int.floor h).toNat
  let lo := nthD 0 s i
  let hi := nthD 0 s (min (i + 1) (s.length - 1))
  lo + (h - (i : ℚ)) * (hi - lo)

theorem quantileLinear_set_bounds (q : ℚ) (hq0 : 0 ≤ q) (hq1 : q ≤ 1)
    (l : List ℚ) (i : ℕ) (v v' : ℚ) (hget : l.get? i = some v) (hvv : v ≤ v') :
    quantileLinear q l ≤ quantileLinear q (l.set i v') ∧
    quantileLinear q (l.set i v') ≤ quantileLinear q l + (v' - v) := by
  have hilen : i < l.length := by
    rcases List.get?_eq_some.mp hget with ⟨h, _⟩
    exact h
  have hn : 1 ≤ l.length := by omega
  have hlenA : (sortL l).length = l.length := sortL_length l
  have hlenB : (sortL (l.set i v')).length = l.length := by
    rw [sortL_length, List.length_set]
  set n := l.length with hnn
  -- the interpolation position only depends on the (common) length
  set h : ℚ := q * ((n : ℚ) - 1) with hh
  have hh0 : 0 ≤ h := by
    apply mul_nonneg hq0
    have : (1 : ℚ) ≤ (n : ℚ) := by exact_mod_cast hn
    linarith
  have hhn : h ≤ (n : ℚ) - 1 := by
    have h1 : (1 : ℚ) ≤ (n : ℚ) := by exact_mod_cast hn
    nlinarith
  set j : ℕ := (Int.floor h).toNat with hj
  have hfl0 : 0 ≤ Int.floor h := Int.floor_nonneg.mpr hh0
  have hjcast : (j : ℚ) = ((Int.floor h : ℤ) : ℚ) := by
    rw [hj]
    exact_mod_cast congrArg (fun z : ℤ => (z : ℚ)) (Int.toNat_of_nonneg hfl0)
  have hfloor_le : Int.floor h ≤ (n : ℤ) - 1 := by
    have : ((n : ℤ) : ℚ) - 1 = (((n : ℤ) - 1 : ℤ) : ℚ) := by push_cast; ring
    have h2 : Int.floor h ≤ Int.floor ((((n : ℤ) - 1 : ℤ) : ℚ)) := by
      apply Int.floor_le_floor
      rw [← this]
      exact_mod_cast hhn
    rwa [Int.floor_intCast] at h2
  have hjn : j < n := by
    have : j ≤ ((n : ℤ) - 1).toNat := Int.toNat_le_toNat hfloor_le
    omega
  have hj1n : min (j + 1) (n - 1) < n := by omega
  have hγ0 : 0 ≤ h - (j : ℚ) := by
    rw [hjcast]
    exact sub_nonneg.mpr (Int.floor_le h)
  have hγ1 : h - (j : ℚ) ≤ 1 := by
    have := Int.lt_floor_add_one h
    rw [hjcast]
    linarith
  have blo := sorted_set_nth_bounds l i v v' hget hvv j hjn
  have bhi := sorted_set_nth_bounds l i v v' hget hvv (min (j + 1) (n - 1)) hj1n
  set a0 := nthD 0 (sortL l) j
  set b0 := nthD 0 (sortL (l.set i v')) j
  set a1 := nthD 0 (sortL l) (min (j + 1) (n - 1))
  set b1 := nthD 0 (sortL (l.set i v')) (min (j + 1) (n - 1))
  have hvalA : quantileLinear q l = a0 + (h - (j : ℚ)) * (a1 - a0) := by
    simp only [quantileLinear, hlenA]
  have hvalB : quantileLinear q (l.set i v') = b0 + (h - (j : ℚ)) * (b1 - b0) := by
    simp only [quantileLinear, hlenB]
  rw [hvalA, hvalB]
  obtain ⟨hlo1, hlo2⟩ := blo
  obtain ⟨hhi1, hhi2⟩ := bhi
  set γ := h - (j : ℚ)
  have key : (b0 + γ * (b1 - b0)) - (a0 + γ * (a1 - a0))
      = (1 - γ) * (b0 - a0) + γ * (b1 - a1) := by ring
  constructor
  · have t1 : 0 ≤ (1 - γ) * (b0 - a0) :=
      mul_nonneg (by linarith) (by linarith)
    have t2 : 0 ≤ γ * (b1 - a1) := mul_nonneg hγ0 (by linarith)
    linarith [key]
  · have t1 : (1 - γ) * (b0 - a0) ≤ (1 - γ) * (v' - v) :=
      mul_le_mul_of_nonneg_left (by linarith) (by linarith)
    have t2 : γ * (b1 - a1) ≤ γ * (v' - v) :=
      mul_le_mul_of_nonneg_left (by linarith) hγ0
    nlinarith [key]

theorem quantileLinear_perm (q : ℚ) {l1 l2 : List ℚ} (hperm : List.Perm l1 l2) :
    quantileLinear q l1 = quantileLinear q l2 := by
  have hsort : sortL l1 = sortL l2 := by
    apply List.eq_of_perm_of_sorted
      (((sortL_perm l1).trans hperm).trans (sortL_perm l2).symm)
      (sortL_sorted l1) (sortL_sorted l2)
  simp only [quantileLinear, hsort]


/-- The four customer segments.  The source returns the strings
"VIP Customers" / "Loyal Customers" / "Regular Customers" /
"One-time Buyers"; they are represented by the four constructors. -/
inductive Segment : Type
  | VIP
  | Loyal
  | Regular
  | OneTime
  deriving DecidableEq

/-- Priority of a segment, highest first: VIP > Loyal > Regular > OneTime. -/
def segRank : Segment → ℕ
  | Segment.VIP => 3
  | Segment.Loyal => 2
  | Segment.Regular => 1
  | Segment.OneTime => 0

/-- `segment_customers` of the source: classify one metrics row
(Order Count, Total Spent) against the 75th/50th linear-interpolation
quantiles of the Total Spent column of the whole metrics table `pop`. -/
def segment_customers (pop : List (ℕ × ℚ)) (row : ℕ × ℚ) : Segment :=
  if 5 ≤ row.1 ∧ quantileLinear (3/4) (pop.map Prod.snd) ≤ row.2 then Segment.VIP
  else if 3 ≤ row.1 ∧ quantileLinear (1/2) (pop.map Prod.snd) ≤ row.2 then Segment.Loyal
  else if 2 ≤ row.1 then Segment.Regular
  else Segment.OneTime

/-- C2: raising one customer's order count and/or total spent, with the
rest of the metrics table fixed and the spend quantiles recomputed over
the modified table, never lowers that customer's segment priority. -/
theorem segmentation_monotone (pop : List (ℕ × ℚ)) (i : ℕ) (c : ℕ) (s : ℚ)
    (c' : ℕ) (s' : ℚ) (hget : pop.get? i = some (c, s)) (hc : c ≤ c') (hs : s ≤ s') :
    segRank (segment_customers pop (c, s)) ≤
      segRank (segment_customers (pop.set i (c', s')) (c', s')) := by
  have hsnd : (pop.map Prod.snd).get? i = some s := by
    rw [List.get?_map, hget]
    rfl
  have hmap : (pop.set i (c', s')).map Prod.snd = (pop.map Prod.snd).set i s' :=
    map_snd_set pop i (c', s')
  have h75 := quantileLinear_set_bounds (3/4) (by norm_num) (by norm_num)
      (pop.map Prod.snd) i s s' hsnd hs
  have h50 := quantileLinear_set_bounds (1/2) (by norm_num) (by norm_num)
      (pop.map Prod.snd) i s s' hsnd hs
  simp only [segment_customers, hmap]
  set q75 := quantileLinear (3/4) (pop.map Prod.snd) with hq75
  set q50 := quantileLinear (1/2) (pop.map Prod.snd) with hq50
  set q75n := quantileLinear (3/4) ((pop.map Prod.snd).set i s') with hq75n
  set q50n := quantileLinear (1/2) ((pop.map Prod.snd).set i s') with hq50n
  by_cases h1 : 5 ≤ c ∧ q75 ≤ s
  · have hnew : 5 ≤ c' ∧ q75n ≤ s' := by
      refine ⟨by omega, ?_⟩
      obtain ⟨_, h⟩ := h1
      linarith [h75.2]
    rw [if_pos h1, if_pos hnew]
  · rw [if_neg h1]
    by_cases h2 : 3 ≤ c ∧ q50 ≤ s
    · rw [if_pos h2]
      by_cases hnew1 : 5 ≤ c' ∧ q75n ≤ s'
      · rw [if_pos hnew1]
        decide
      · have hnew2 : 3 ≤ c' ∧ q50n ≤ s' := by
          refine ⟨by omega, ?_⟩
          obtain ⟨_, h⟩ := h2
          linarith [h50.2]
        rw [if_neg hnew1, if_pos hnew2]
    · rw [if_neg h2]
      by_cases h3 : 2 ≤ c
      · rw [if_pos h3]
        by_cases hnew1 : 5 ≤ c' ∧ q75n ≤ s'
        · rw [if_pos hnew1]
          decide
        · rw [if_neg hnew1]
          by_cases hnew2 : 3 ≤ c' ∧ q50n ≤ s'
          · rw [if_pos hnew2]
            decide
          · rw [if_neg hnew2, if_pos (show 2 ≤ c' by omega)]
      · rw [if_neg h3]
        exact Nat.zero_le _

/-- A concrete two-customer metrics table used to witness C2. -/
def popW : List (ℕ × ℚ) := [(1, 10), (6, 900)]

theorem segmentation_monotone_witness :
    segRank (segment_customers popW (6, 900)) ≤
      segRank (segment_customers (popW.set 1 (7, 1000)) (7, 1000)) :=
  segmentation_monotone popW 1 6 900 7 1000 (by rfl) (by omega) (by norm_num)


/-- One row of the unified (`comprehensive`) table, with the columns the
dashboard's filter and aggregation stages read.  `division` and
`trans_type` are `none` when the left join found no store / transaction
dimension row (pandas `NaN`); `date` is `none` when the time key had no
match or its date string failed to parse (pandas `NaT`); dates are
modelled as day ordinals. -/
structure URec where
  coustomer_key : ℕ
  item_key : ℕ
  total_price : ℚ
  unit_price : ℚ
  quantity : ℚ
  division : Option String
  trans_type : Option String
  date : Option ℤ
  deriving DecidableEq

/-- Order Count of one customer: `groupby("coustomer_key")` + count. -/
def orderCount (rs : List URec) (k : ℕ) : ℕ :=
  (rs.filter (fun r => decide (r.coustomer_key = k))).length

/-- Total Spent of one customer: `groupby("coustomer_key")` + sum of
`total_price`. -/
def totalSpent (rs : List URec) (k : ℕ) : ℚ :=
  ((rs.filter (fun r => decide (r.coustomer_key = k))).map URec.total_price).sum

/-- The group keys of `groupby("coustomer_key")`: the distinct customer
keys, in the sorted order pandas produces. -/
def customerKeys (rs : List URec) : List ℕ :=
  ((rs.map URec.coustomer_key).dedup).insertionSort (· ≤ ·)

/-- The `customer_metrics` table of `create_customer_analysis`: one
(Order Count, Total Spent) row per distinct customer key. -/
def customer_metrics (rs : List URec) : List (ℕ × ℚ) :=
  (customerKeys rs).map (fun k => (orderCount rs k, totalSpent rs k))

/-- `customer_metrics["Segment"]`: the segmentation column produced by
`customer_metrics.apply(segment_customers, axis=1)`, keyed by customer. -/
def segmentedTable (rs : List URec) : List (ℕ × Segment) :=
  (customerKeys rs).map
    (fun k => (k, segment_customers (customer_metrics rs) (orderCount rs k, totalSpent rs k)))

/-- The per-customer totals of the collection, in first-appearance order:
the population over which the claim's `q75`/`q50` are taken. -/
def specSpentList (rs : List URec) : List ℚ :=
  ((rs.map URec.coustomer_key).dedup).map (totalSpent rs)

/-- The claim's classification rule: first matching label in priority
order, given the row's metrics and the two spend quantiles. -/
def specLabel (count : ℕ) (spent q75 q50 : ℚ) : Segment :=
  if 5 ≤ count ∧ q75 ≤ spent then Segment.VIP
  else if 3 ≤ count ∧ q50 ≤ spent then Segment.Loyal
  else if 2 ≤ count then Segment.Regular
  else Segment.OneTime

/-- The date-range predicate of `main`: both bounds inclusive; a `NaT`
date fails both pandas comparisons, hence the record is dropped. -/
def inDateRange (lo hi : ℤ) (r : URec) : Bool :=
  match r.date with
  | some d => decide (lo ≤ d) && decide (d ≤ hi)
  | none => false

/-- The division predicate of `main`: `isin(divisions)`; a `NaN`
division is never `isin` any selection. -/
def inDivisions (divisions : List String) (r : URec) : Bool :=
  match r.division with
  | some d => divisions.contains d
  | none => false

/-- The payment-method predicate of `main`, analogous to `inDivisions`. -/
def inPayments (payment_methods : List String) (r : URec) : Bool :=
  match r.trans_type with
  | some t => payment_methods.contains t
  | none => false

/-- The sidebar filter stage of `main`: the date-range mask is applied
when a (lo, hi) pair was selected, then the division mask if the
selection is non-empty, then the payment-method mask if non-empty. -/
def applyFilters (dr : Option (ℤ × ℤ)) (divisions payment_methods : List String)
    (rs : List URec) : List URec :=
  let rs1 := match dr with
    | some (lo, hi) => rs.filter (inDateRange lo hi)
    | none => rs
  let rs2 := if divisions.isEmpty then rs1 else rs1.filter (inDivisions divisions)
  if payment_methods.isEmpty then rs2 else rs2.filter (inPayments payment_methods)

/-- Mean of a column: pandas returns `NaN` on an empty series, modelled
as `none`. -/
def colMean (l : List ℚ) : Option ℚ :=
  if l.length = 0 then none else some (l.sum / (l.length : ℚ))

/-- The five KPI values of `create_kpi_metrics`. -/
structure KPI where
  total_revenue : ℚ
  total_orders : ℕ
  avg_order_value : Option ℚ
  total_customers : ℕ
  total_products : ℕ
  deriving DecidableEq

/-- `create_kpi_metrics` of the source: sum / count / mean / nunique /
nunique over the filtered table. -/
def create_kpi_metrics (rs : List URec) : KPI where
  total_revenue := (rs.map URec.total_price).sum
  total_orders := rs.length
  avg_order_value := colMean (rs.map URec.total_price)
  total_customers := ((rs.map URec.coustomer_key).dedup).length
  total_products := ((rs.map URec.item_key).dedup).length

/-- A grouped revenue sum, e.g. `groupby("division")["total_price"].sum()`;
pandas drops `NaN` group keys. -/
def groupRevenue (keyOf : URec → Option String) (rs : List URec) : List (String × ℚ) :=
  ((rs.filterMap keyOf).dedup).map
    (fun g => (g, ((rs.filter (fun r => decide (keyOf r = some g))).map URec.total_price).sum))


/-- C1: for a non-empty collection, the segmentation pipeline of
`create_customer_analysis` assigns every customer the first matching
label in priority order (VIP, Loyal, Regular, OneTime), judged against
its own order count and total spent and the 75th/50th
linear-interpolation percentiles of the per-customer totals of that same
collection. -/
theorem segmentation_matches_spec (rs : List URec) (hne : rs ≠ []) (k : ℕ) (seg : Segment)
    (hmem : (k, seg) ∈ segmentedTable rs) :
    seg = specLabel (orderCount rs k) (totalSpent rs k)
      (quantileLinear (3/4) (specSpentList rs)) (quantileLinear (1/2) (specSpentList rs)) := by
  rcases List.mem_map.mp hmem with ⟨k0, hk0, heq⟩
  have hk : k0 = k := congrArg Prod.fst heq
  have hseg : segment_customers (customer_metrics rs) (orderCount rs k0, totalSpent rs k0)
      = seg := congrArg Prod.snd heq
  subst hk
  rw [← hseg]
  have hcol : (customer_metrics rs).map Prod.snd
      = (customerKeys rs).map (fun k => totalSpent rs k) := by
    simp [customer_metrics, List.map_map, Function.comp]
  have hperm : List.Perm (customerKeys rs) ((rs.map URec.coustomer_key).dedup) :=
    List.perm_insertionSort _ _
  have hq : ∀ q : ℚ, quantileLinear q ((customer_metrics rs).map Prod.snd)
      = quantileLinear q (specSpentList rs) := by
    intro q
    rw [hcol]
    exact quantileLinear_perm q (hperm.map (fun k => totalSpent rs k))
  simp only [segment_customers, specLabel, hq]

/-- A concrete two-row collection (one customer with two orders) used to
witness C1. -/
def rW1 : URec :=
  { coustomer_key := 1, item_key := 1, total_price := 10, unit_price := 2,
    quantity := 1, division := none, trans_type := none, date := some 5 }

def rW2 : URec :=
  { coustomer_key := 1, item_key := 2, total_price := 20, unit_price := 4,
    quantity := 2, division := none, trans_type := none, date := some 6 }

def rsW : List URec := [rW1, rW2]

theorem segmentation_matches_spec_witness :
    Segment.Regular = specLabel (orderCount rsW 1) (totalSpent rsW 1)
      (quantileLinear (3/4) (specSpentList rsW)) (quantileLinear (1/2) (specSpentList rsW)) :=
  segmentation_matches_spec rsW (by decide) 1 Segment.Regular (by decide)

/-- A record whose time-dimension date failed to resolve (`NaT`). -/
def rNoDate : URec :=
  { coustomer_key := 2, item_key := 3, total_price := 7, unit_price := 1,
    quantity := 1, division := none, trans_type := none, date := none }

/-- C4 counterexample: with a null-dated record present, the filter over
the full range of the non-null dates (5..5 here) with empty division and
payment selections does not return the collection unchanged — the
null-dated record is dropped. -/
theorem filters_identity_counterexample :
    applyFilters (some (5, 5)) [] [] [rW1, rNoDate] ≠ [rW1, rNoDate] := by
  decide

/-- C4 (amended): the filter with empty division and payment-method
selections and a date range covering every record's date is the
identity, provided every record's date is non-null. -/
theorem filters_identity (lo hi : ℤ) (rs : List URec)
    (hall : ∀ r ∈ rs, ∃ d : ℤ, r.date = some d ∧ lo ≤ d ∧ d ≤ hi) :
    applyFilters (some (lo, hi)) [] [] rs = rs := by
  have hdef : applyFilters (some (lo, hi)) [] [] rs = rs.filter (inDateRange lo hi) := rfl
  rw [hdef, List.filter_eq_self]
  intro r hr
  rcases hall r hr with ⟨d, hd, h1, h2⟩
  simp [inDateRange, hd, h1, h2]

theorem filters_identity_witness : applyFilters (some (0, 10)) [] [] [rW1] = [rW1] :=
  filters_identity 0 10 [rW1] (by
    intro r hr
    simp only [List.mem_singleton] at hr
    subst hr
    exact ⟨5, rfl, by omega, by omega⟩)

/-- C9: whenever the date-range mask is applied, a record whose date is
null is excluded from the filtered collection, whatever the bounds and
the other selections. -/
theorem null_date_excluded (lo hi : ℤ) (divisions payment_methods : List String)
    (rs : List URec) (r : URec) (hr : r.date = none) :
    r ∉ applyFilters (some (lo, hi)) divisions payment_methods rs := by
  intro hmem
  have hF : r ∈ rs.filter (inDateRange lo hi) := by
    simp only [applyFilters] at hmem
    split_ifs at hmem
    · exact hmem
    · exact (List.mem_filter.mp hmem).1
    · exact (List.mem_filter.mp hmem).1
    · exact (List.mem_filter.mp (List.mem_filter.mp hmem).1).1
  have hdate := (List.mem_filter.mp hF).2
  simp [inDateRange, hr] at hdate

theorem null_date_excluded_witness :
    rNoDate ∉ applyFilters (some (0, 10)) [] [] [rNoDate] :=
  null_date_excluded 0 10 [] [] [rNoDate] rNoDate rfl

/-- C6: on the empty filtered collection every aggregation returns an
empty or zero result — revenue 0, order count 0, average order value
undefined (`none`, pandas `NaN`) rather than a division by zero, and the
grouped sums and the segmentation table are empty. -/
theorem empty_aggregations :
    create_kpi_metrics [] =
      { total_revenue := 0, total_orders := 0, avg_order_value := none,
        total_customers := 0, total_products := 0 } ∧
    groupRevenue URec.division [] = [] ∧
    groupRevenue URec.trans_type [] = [] ∧
    segmentedTable [] = [] :=
  ⟨rfl, rfl, rfl, rfl⟩


/-- Value of one cell of the `profit_margin` float column.  The source
computes `(total_price - unit_price*0.7) / total_price * 100` on float
Series, so a zero denominator follows IEEE-754 semantics: `0/0` is NaN
and `±x/0` a signed infinity; no exception is raised and no null (`NaN`
is the only value pandas treats as missing). -/
inductive PyFloat : Type
  | val (q : ℚ)
  | nan
  | pinf
  | ninf
  deriving DecidableEq

/-- `pd.isna` on a float: only NaN counts as missing; infinities do not. -/
def PyFloat.isna : PyFloat → Bool
  | PyFloat.nan => true
  | _ => false

/-- The `profit_margin` derivation of `load_data`, line by line:
numerator `total_price - unit_price * 0.7`, divided by `total_price`,
times 100, under the float semantics above. -/
def profit_margin (total_price unit_price : ℚ) : PyFloat :=
  if total_price = 0 then
    if total_price - unit_price * (7/10) = 0 then PyFloat.nan
    else if 0 < total_price - unit_price * (7/10) then PyFloat.pinf
    else PyFloat.ninf
  else PyFloat.val ((total_price - unit_price * (7/10)) / total_price * 100)

/-- C3 counterexample: at `total_price = 0`, `unit_price = 1` the column
holds `-inf`, which is neither null (not missing to `pd.isna`) nor NaN —
the claim's "null, never NaN" description fails. -/
theorem profit_margin_counterexample :
    profit_margin 0 1 = PyFloat.ninf ∧ (profit_margin 0 1).isna = false := by
  have h1 : ¬((0 : ℚ) - 1 * (7/10) = 0) := by norm_num
  have h3 : ¬((0 : ℚ) < 0 - 1 * (7/10)) := by norm_num
  have hpm : profit_margin 0 1 = PyFloat.ninf := by
    simp only [profit_margin]
    rw [if_pos True.intro, if_neg h1, if_neg h3]
  exact ⟨hpm, by rw [hpm]; rfl⟩

/-- C3 (amended): for a nonzero `total_price` the exact formula holds;
at `total_price = 0` the result is NaN when the numerator is zero and a
signed infinity otherwise — never a null and never an exception. -/
theorem profit_margin_amended (tp up : ℚ) :
    (tp ≠ 0 → profit_margin tp up = PyFloat.val ((tp - up * (7/10)) / tp * 100)) ∧
    (tp = 0 → up = 0 → profit_margin tp up = PyFloat.nan) ∧
    (tp = 0 → 0 < up → profit_margin tp up = PyFloat.ninf) ∧
    (tp = 0 → up < 0 → profit_margin tp up = PyFloat.pinf) := by
  refine ⟨?_, ?_, ?_, ?_⟩
  · intro h
    simp [profit_margin, h]
  · rintro rfl rfl
    simp [profit_margin]
  · rintro rfl h2
    have h1 : ¬((0 : ℚ) - up * (7/10) = 0) := by intro hc; nlinarith
    have h3 : ¬((0 : ℚ) < 0 - up * (7/10)) := by intro hc; nlinarith
    simp only [profit_margin]
    rw [if_pos True.intro, if_neg h1, if_neg h3]
  · rintro rfl h2
    have h1 : ¬((0 : ℚ) - up * (7/10) = 0) := by intro hc; nlinarith
    have h3 : (0 : ℚ) < 0 - up * (7/10) := by nlinarith
    simp only [profit_margin]
    rw [if_pos True.intro, if_neg h1, if_pos h3]

theorem profit_margin_amended_witness :
    profit_margin 2 1 = PyFloat.val ((2 - 1 * (7/10)) / 2 * 100) :=
  (profit_margin_amended 2 1).1 (by norm_num)

/-- One row of `fact_table.csv`. -/
structure FactRow where
  coustomer_key : ℕ
  item_key : ℕ
  store_key : ℕ
  time_key : ℕ
  payment_key : ℕ
  quantity : ℚ
  unit_price : ℚ
  total_price : ℚ
  deriving DecidableEq

/-- A fact row joined against the five dimension tables; a `none` payload
marks a foreign key with no dimension match (the left join's null
fields).  The payload types stand for the column bundles each merge
takes from its dimension table. -/
structure Unified (C I S T P : Type) where
  fact : FactRow
  customer : Option C
  item : Option I
  store : Option S
  time : Option T
  trans : Option P
  deriving DecidableEq

/-- One pandas left merge on an ℕ key: every left row is kept, repeated
once per matching dimension row, or kept once with a null payload when
no dimension row matches. -/
def mergeLeft {α β γ : Type} (key : α → ℕ) (dim : List (ℕ × β))
    (attach : α → Option β → γ) : List α → List γ
  | [] => []
  | r :: rest =>
    (if (dim.filter (fun p => decide (p.1 = key r))).isEmpty
      then [attach r none]
      else (dim.filter (fun p => decide (p.1 = key r))).map (fun p => attach r (some p.2)))
    ++ mergeLeft key dim attach rest

/-- Dimension lookup by surrogate key. -/
def lookupDim {β : Type} (dim : List (ℕ × β)) (k : ℕ) : Option β :=
  (dim.find? (fun p => decide (p.1 = k))).map Prod.snd

/-- The five chained left merges of `load_data` building
`comprehensive_data`, anchored on the fact table. -/
def comprehensive_data {C I S T P : Type} (facts : List FactRow)
    (cdim : List (ℕ × C)) (idim : List (ℕ × I)) (sdim : List (ℕ × S))
    (tdim : List (ℕ × T)) (pdim : List (ℕ × P)) : List (Unified C I S T P) :=
  let s1 := mergeLeft FactRow.coustomer_key cdim
    (fun f c => ({ fact := f, customer := c, item := none, store := none,
                   time := none, trans := none } : Unified C I S T P)) facts
  let s2 := mergeLeft (fun u => u.fact.item_key) idim (fun u i => { u with item := i }) s1
  let s3 := mergeLeft (fun u => u.fact.store_key) sdim (fun u s => { u with store := s }) s2
  let s4 := mergeLeft (fun u => u.fact.time_key) tdim (fun u t => { u with time := t }) s3
  mergeLeft (fun u => u.fact.payment_key) pdim (fun u p => { u with trans := p }) s4

theorem filter_key_of_nodup {β : Type} (dim : List (ℕ × β))
    (hnd : (dim.map Prod.fst).Nodup) (k : ℕ) :
    dim.filter (fun p => decide (p.1 = k)) =
      match dim.find? (fun p => decide (p.1 = k)) with
      | none => []
      | some pr => [pr] := by
  induction dim with
  | nil => rfl
  | cons a t ih =>
    have hnd2 : (t.map Prod.fst).Nodup := (List.nodup_cons.mp hnd).2
    have hnotin : a.1 ∉ t.map Prod.fst := (List.nodup_cons.mp hnd).1
    by_cases hk : a.1 = k
    · have hft : t.filter (fun p => decide (p.1 = k)) = [] := by
        rw [List.filter_eq_nil_iff]
        intro p hp
        simp only [decide_eq_true_eq]
        intro hpk
        exact hnotin (by
          rw [hk, ← hpk]
          exact List.mem_map_of_mem Prod.fst hp)
      simp [List.filter_cons, List.find?_cons, hk, hft]
    · simp only [List.filter_cons, List.find?_cons]
      have : decide (a.1 = k) = false := by simp [hk]
      rw [this]
      simpa using ih hnd2

theorem mergeLeft_of_nodup {α β γ : Type} (key : α → ℕ) (dim : List (ℕ × β))
    (hnd : (dim.map Prod.fst).Nodup) (attach : α → Option β → γ) :
    ∀ rows : List α,
      mergeLeft key dim attach rows = rows.map (fun r => attach r (lookupDim dim (key r))) := by
  intro rows
  induction rows with
  | nil => rfl
  | cons r rest ih =>
    simp only [mergeLeft, ih, List.map_cons]
    rw [filter_key_of_nodup dim hnd (key r)]
    cases hf : dim.find? (fun p => decide (p.1 = key r)) with
    | none => simp [lookupDim, hf]
    | some pr => simp [lookupDim, hf]

/-- C5: when every dimension key is unique within its table, unification
yields exactly one unified record per fact row, in fact-table order,
each dimension field holding the looked-up row or null when the foreign
key has no match. -/
theorem unify_left_join {C I S T P : Type} (facts : List FactRow)
    (cdim : List (ℕ × C)) (idim : List (ℕ × I)) (sdim : List (ℕ × S))
    (tdim : List (ℕ × T)) (pdim : List (ℕ × P))
    (hc : (cdim.map Prod.fst).Nodup) (hi : (idim.map Prod.fst).Nodup)
    (hs : (sdim.map Prod.fst).Nodup) (ht : (tdim.map Prod.fst).Nodup)
    (hp : (pdim.map Prod.fst).Nodup) :
    comprehensive_data facts cdim idim sdim tdim pdim =
      facts.map (fun f =>
        { fact := f, customer := lookupDim cdim f.coustomer_key,
          item := lookupDim idim f.item_key, store := lookupDim sdim f.store_key,
          time := lookupDim tdim f.time_key, trans := lookupDim pdim f.payment_key }) := by
  simp only [comprehensive_data]
  rw [mergeLeft_of_nodup _ _ hc, mergeLeft_of_nodup _ _ hi, mergeLeft_of_nodup _ _ hs,
      mergeLeft_of_nodup _ _ ht, mergeLeft_of_nodup _ _ hp]
  simp only [List.map_map]
  rfl

def factW : FactRow :=
  { coustomer_key := 1, item_key := 99, store_key := 2, time_key := 3,
    payment_key := 4, quantity := 1, unit_price := 5, total_price := 10 }

theorem unify_left_join_witness :
    comprehensive_data [factW] [(1, 11)] ([] : List (ℕ × ℕ)) [(2, 22)] [(3, 33)] [(4, 44)] =
      [{ fact := factW, customer := some 11, item := none, store := some 22,
         time := some 33, trans := some 44 }] := by
  rw [unify_left_join [factW] [(1, 11)] ([] : List (ℕ × ℕ)) [(2, 22)] [(3, 33)] [(4, 44)]
    (by decide) (by decide) (by decide) (by decide) (by decide)]
  rfl


/-- Outcome of one `pd.read_csv(filename, encoding=e)` attempt: a parsed
table, a `UnicodeDecodeError`, or any other read failure (such as a
missing file, `FileNotFoundError`). -/
inductive ReadOutcome (α : Type) : Type
  | ok (t : α)
  | decodeError
  | readFailure
  deriving DecidableEq

def msgNoEncoding : String := "Could not load with any encoding"

def msgReadFailure : String := "read failed"

def strDefault : String := ""

/-- The encoding loop of `load_csv_with_encoding`: a decode error moves
to the next encoding, success returns the table, any other failure
propagates immediately, and an exhausted list raises. -/
def tryEncodings {α : Type} (read : String → ReadOutcome α) : List String → Except String α
  | [] => Except.error msgNoEncoding
  | e :: rest =>
    match read e with
    | ReadOutcome.ok t => Except.ok t
    | ReadOutcome.decodeError => tryEncodings read rest
    | ReadOutcome.readFailure => Except.error msgReadFailure

def encUtf8 : String := "utf-8"
def encLatin1 : String := "latin-1"
def encIso : String := "iso-8859-1"
def encCp1252 : String := "cp1252"
def encUtf8Sig : String := "utf-8-sig"

/-- The `encodings` list of the source, in source order. -/
def encodings : List String := [encUtf8, encLatin1, encIso, encCp1252, encUtf8Sig]

def load_csv_with_encoding {α : Type} (read : String → ReadOutcome α) : Except String α :=
  tryEncodings read encodings

theorem tryEncodings_ok_iff {α : Type} (read : String → ReadOutcome α) :
    ∀ (es : List String) (t : α),
    tryEncodings read es = Except.ok t ↔
      ∃ i, i < es.length ∧ read (nthD strDefault es i) = ReadOutcome.ok t ∧
        ∀ j, j < i → read (nthD strDefault es j) = ReadOutcome.decodeError := by
  intro es
  induction es with
  | nil =>
    intro t
    simp [tryEncodings]
  | cons e rest ih =>
    intro t
    cases hre : read e with
    | ok t0 =>
      simp only [tryEncodings, hre]
      constructor
      · intro h
        have ht : t0 = t := by simpa using h
        subst ht
        exact ⟨0, by simp, by simpa [nthD] using hre,
          fun j hj => (Nat.not_lt_zero j hj).elim⟩
      · rintro ⟨i, hi, hok, hprev⟩
        cases i with
        | zero =>
          simp only [nthD] at hok
          rw [hre] at hok
          injection hok with h
          rw [h]
        | succ j =>
          have h0 := hprev 0 (by omega)
          simp only [nthD] at h0
          rw [hre] at h0
          exact absurd h0 (by simp)
    | decodeError =>
      simp only [tryEncodings, hre]
      rw [ih t]
      constructor
      · rintro ⟨i, hi, hok, hprev⟩
        refine ⟨i + 1, by simpa using Nat.succ_lt_succ hi, by simpa [nthD] using hok, ?_⟩
        intro j hj
        cases j with
        | zero => simpa [nthD] using hre
        | succ j2 => simpa [nthD] using hprev j2 (by omega)
      · rintro ⟨i, hi, hok, hprev⟩
        cases i with
        | zero =>
          simp only [nthD] at hok
          rw [hre] at hok
          exact absurd hok (by simp)
        | succ j =>
          refine ⟨j, by simpa using hi, by simpa [nthD] using hok, ?_⟩
          intro j2 hj2
          simpa [nthD] using hprev (j2 + 1) (by omega)
    | readFailure =>
      simp only [tryEncodings, hre]
      constructor
      · intro h
        simp at h
      · rintro ⟨i, hi, hok, hprev⟩
        cases i with
        | zero =>
          simp only [nthD] at hok
          rw [hre] at hok
          exact absurd hok (by simp)
        | succ j =>
          have h0 := hprev 0 (by omega)
          simp only [nthD] at h0
          rw [hre] at h0
          exact absurd h0 (by simp)

theorem tryEncodings_all_decode {α : Type} (read : String → ReadOutcome α) :
    ∀ es : List String, (∀ e ∈ es, read e = ReadOutcome.decodeError) →
    tryEncodings read es = Except.error msgNoEncoding := by
  intro es
  induction es with
  | nil => intro _; rfl
  | cons e rest ih =>
    intro h
    have he : read e = ReadOutcome.decodeError := h e (List.mem_cons_self e rest)
    simp only [tryEncodings, he]
    exact ih (fun x hx => h x (List.mem_cons_of_mem e hx))

theorem tryEncodings_read_failure {α : Type} (read : String → ReadOutcome α)
    (e : String) (rest : List String) (h : read e = ReadOutcome.readFailure) :
    tryEncodings read (e :: rest) = Except.error msgReadFailure := by
  simp only [tryEncodings, h]

/-- C7: the loader tries utf-8, latin-1, iso-8859-1, cp1252, utf-8-sig in
that order; it returns a table exactly when some encoding parses after
the earlier ones all failed with decode errors, it fails when every
encoding hits a decode error, and it fails when the file is absent
(every read attempt fails outright). -/
theorem encoding_fallback {α : Type} (read : String → ReadOutcome α) :
    (∀ t : α, load_csv_with_encoding read = Except.ok t ↔
      ∃ i, i < encodings.length ∧ read (nthD strDefault encodings i) = ReadOutcome.ok t ∧
        ∀ j, j < i → read (nthD strDefault encodings j) = ReadOutcome.decodeError) ∧
    ((∀ e ∈ encodings, read e = ReadOutcome.decodeError) →
      ∃ msg, load_csv_with_encoding read = Except.error msg) ∧
    ((∀ e : String, read e = ReadOutcome.readFailure) →
      ∃ msg, load_csv_with_encoding read = Except.error msg) := by
  refine ⟨fun t => tryEncodings_ok_iff read encodings t, ?_, ?_⟩
  · intro h
    exact ⟨msgNoEncoding, tryEncodings_all_decode read encodings h⟩
  · intro h
    exact ⟨msgReadFailure, tryEncodings_read_failure read encUtf8 _ (h encUtf8)⟩

/-- A reader that decodes only under latin-1, used to witness C7. -/
def readW : String → ReadOutcome ℕ :=
  fun e => if e = encLatin1 then ReadOutcome.ok 42 else ReadOutcome.decodeError

theorem encoding_fallback_witness : load_csv_with_encoding readW = Except.ok 42 :=
  ((encoding_fallback readW).1 42).mpr ⟨1, by decide, by decide, by decide⟩


/-- Boolean test that `sep` is an initial run of `s`. -/
def leadsWith : List Char → List Char → Bool
  | [], _ => true
  | _ :: _, [] => false
  | a :: as, b :: bs => a == b && leadsWith as bs

/-- Index of the first (leftmost) occurrence of `sep` in `s`, if any:
the semantics of Python `str.find` / the scan behind `in` and `split`. -/
def findSub (sep : List Char) : List Char → Option ℕ
  | [] => if sep.isEmpty then some 0 else none
  | c :: rest =>
    if leadsWith sep (c :: rest) then some 0
    else (findSub sep rest).map (fun n => n + 1)

/-- Python `sep in s`. -/
def containsSub (sep s : List Char) : Bool := (findSub sep s).isSome

/-- Python `s.split(sep)` for a non-empty separator: cut at each leftmost
occurrence, left to right.  Each step drops at least one character, so
`s.length + 1` steps of fuel always suffice. -/
def pySplitAux (sep : List Char) : ℕ → List Char → List (List Char)
  | 0, s => [s]
  | fuel + 1, s =>
    match findSub sep s with
    | none => [s]
    | some k => s.take k :: pySplitAux sep fuel (s.drop (k + sep.length))

def pySplit (sep s : List Char) : List (List Char) := pySplitAux sep (s.length + 1) s

/-- Python `str.strip()`: drop whitespace from both ends. -/
def pyStrip (s : List Char) : List Char :=
  ((s.dropWhile Char.isWhitespace).reverse.dropWhile Char.isWhitespace).reverse

/-- The delimiter `" - "` of the `main_category` lambda. -/
def sepDash : List Char := [' ', '-', ' ']

/-- `str(nan)` — the three-character string a missing description is
turned into by the lambda's `str(x)` fallback. -/
def nanChars : List Char := ['n', 'a', 'n']

/-- The `main_category` lambda of `load_data`:
`x.split(" - ")[0].strip() if pd.notna(x) and " - " in x else str(x).strip()`.
A missing description (`none`, pandas `NaN`) fails `pd.notna` and is
stringified to `"nan"` by the fallback branch. -/
def main_category (desc : Option (List Char)) : List Char :=
  match desc with
  | some x =>
    if containsSub sepDash x then pyStrip ((pySplit sepDash x).headD x)
    else pyStrip x
  | none => pyStrip nanChars

/-- The claim's characterization: the text before the first occurrence of
the delimiter, or the whole string when the delimiter is absent. -/
def beforeFirst (sep s : List Char) : List Char :=
  match findSub sep s with
  | some k => s.take k
  | none => s

def strElectronicsPhones : String := "Electronics - Phones"
def strElectronics : String := "Electronics"
def strMisc : String := "Misc"
def strNan : String := "nan"

/-- C8: for every non-null description, `main_category` is the trimmed
text before the first occurrence of `" - "` (the whole trimmed text when
the delimiter is absent); in particular on "Electronics - Phones" it is
"Electronics" and on "Misc" it is "Misc". -/
theorem main_category_spec (x : List Char) :
    main_category (some x) =
      (if containsSub sepDash x then pyStrip (beforeFirst sepDash x) else pyStrip x) ∧
    main_category (some strElectronicsPhones.toList) = strElectronics.toList ∧
    main_category (some strMisc.toList) = strMisc.toList := by
  refine ⟨?_, by decide, by decide⟩
  by_cases h : containsSub sepDash x = true
  · obtain ⟨k, hk⟩ : ∃ k, findSub sepDash x = some k := by
      rcases ho : findSub sepDash x with _ | k
      · rw [containsSub, ho] at h
        simp at h
      · exact ⟨k, rfl⟩
    have hhead : (pySplit sepDash x).headD x = x.take k := by
      simp only [pySplit, pySplitAux, hk]
      rfl
    simp only [main_category, beforeFirst, h, if_true, hk, hhead]
  · simp only [Bool.not_eq_true] at h
    simp only [main_category, beforeFirst, h, Bool.false_eq_true, if_false]

/-- C10: a null (missing) item description is stringified, so its main
category is the literal three-character string "nan", not a null — such
rows land in a category named "nan". -/
theorem main_category_null_desc : main_category none = strNan.toList := by
  decide

end Dashboard
